import Mathlib

/-!
Verification of the syncretism-calculator core (`syncalc.py`).

The Python source works over sets of ordered pairs.  Hierarchy labels are
one-character strings ('1','2','3','s','p'), so a node such as "1s" is the
concatenation of a person label and a number label; `add_ranking`
destructures a node back into its two characters.  We model labels as
`Char` and nodes as `Char × Char`, which makes that destructuring the two
pair projections.  Python `set`s become `Finset`s.

`reachability_closure` in the source recurses until a fixpoint
(`if new_algebra == algebra`).  We embed this as an explicitly fuelled
iteration of the same one-round step and prove that the supplied fuel
always suffices to reach the fixpoint
(`closure_step_reachability_closure`), so the embedding computes the same
relation the Python recursion does.
-/

namespace Syncalc

abbrev Label := Char

abbrev Node := Label × Label

section ClosureDefs

variable {α : Type} [DecidableEq α]

/-- One round of the loop body of `reachability_closure`: add `(a, c)`
whenever `(a, b)` and `(b, c)` are present and `a ≠ c`. -/
def closure_step (algebra : Finset (α × α)) : Finset (α × α) :=
  algebra ∪
    ((algebra ×ˢ algebra).filter
        (fun pq => pq.1.2 = pq.2.1 ∧ pq.1.1 ≠ pq.2.2)).image
      (fun pq => (pq.1.1, pq.2.2))

/-- All elements mentioned by the relation (on either side of an arc). -/
def rel_support (algebra : Finset (α × α)) : Finset α :=
  algebra.image Prod.fst ∪ algebra.image Prod.snd

/-- The recursion of `reachability_closure`, with an explicit fuel
parameter; `reachability_closure` supplies enough fuel to reach the
fixpoint (see `closure_step_reachability_closure`). -/
def closure_iter : Nat → Finset (α × α) → Finset (α × α)
  | 0, algebra => algebra
  | n + 1, algebra =>
      let new_algebra := closure_step algebra
      if new_algebra = algebra then algebra else closure_iter n new_algebra

/-- `reachability_closure` from the source: iterate the one-round step to
the fixpoint. -/
def reachability_closure (algebra : Finset (α × α)) : Finset (α × α) :=
  closure_iter ((rel_support algebra ×ˢ rel_support algebra).card) algebra

/-- The closedness property the spec ascribes to the result: composable
arcs with distinct endpoints have their composite in the relation. -/
def closedRel (R : Finset (α × α)) : Prop :=
  ∀ p ∈ R, ∀ q ∈ R, p.2 = q.1 → p.1 ≠ q.2 → (p.1, q.2) ∈ R

instance closedRel_decidable (R : Finset (α × α)) : Decidable (closedRel R) :=
  inferInstanceAs (Decidable (∀ p ∈ R, ∀ q ∈ R, p.2 = q.1 → p.1 ≠ q.2 → (p.1, q.2) ∈ R))

end ClosureDefs

/-! ## Cross-product construction (`extract_elements`, `add_ranking`, `crossalgebra`) -/

/-- `extract_elements`: every label appearing in any pair of the hierarchy. -/
def extract_elements (hierarchy : Finset (Label × Label)) : Finset Label :=
  hierarchy.image Prod.fst ∪ hierarchy.image Prod.snd

/-- `add_ranking`: returns `(node1, node2)` when `node1` ranks before
`node2` (equal-or-before on both dimensions, nodes distinct), and Python's
`None` — modelled as `none` — otherwise. -/
def add_ranking (node1 node2 : Node) (person number : Finset (Label × Label)) :
    Option (Node × Node) :=
  if node1 ≠ node2 ∧
      (node1.1 = node2.1 ∨ (node1.1, node2.1) ∈ person) ∧
      (node1.2 = node2.2 ∨ (node1.2, node2.2) ∈ number) then
    some (node1, node2)
  else
    none

/-- The node universe of `crossalgebra`: all person–number combinations. -/
def cross_nodes (person number : Finset (Label × Label)) : Finset Node :=
  extract_elements person ×ˢ extract_elements number

/-- The `output` set built inside `crossalgebra`, before `None` removal:
`add_ranking` applied to every ordered pair of nodes. -/
def cross_output (person number : Finset (Label × Label)) :
    Finset (Option (Node × Node)) :=
  (cross_nodes person number ×ˢ cross_nodes person number).image
    (fun nm => add_ranking nm.1 nm.2 person number)

/-- The relation `crossalgebra` returns on the non-error path: the built
output with the `None` sentinel removed. -/
def crossalgebra_rel (person number : Finset (Label × Label)) :
    Finset (Node × Node) :=
  ((cross_output person number).erase none).image
    (fun o => o.getD ((default, default), (default, default)))

/-- `crossalgebra`: Python's `output.remove(None)` raises `KeyError` when
the sentinel is absent; we model that fallible call with `Except`. -/
def crossalgebra (person number : Finset (Label × Label)) :
    Except String (Finset (Node × Node)) :=
  if none ∈ cross_output person number then
    Except.ok (crossalgebra_rel person number)
  else
    Except.error "KeyError: None"

/-- The `'sp'` number hierarchy from the source. -/
def number_hrcs_sp : Finset (Label × Label) := {('s', 'p')}

/-- The `'123'` person hierarchy from the source. -/
def person_hrcs_123 : Finset (Label × Label) := {('1', '2'), ('2', '3'), ('1', '3')}

/-! ## Extension search (`algebra_expansions` / `arc_addition`) -/

/-- The candidate arc pool of `arc_addition`: all ordered pairs of distinct
nodes, minus the arcs already in the algebra. -/
def candidate_pool (algebra : Finset (Node × Node))
    (person number : Finset (Label × Label)) : Finset (Node × Node) :=
  ((cross_nodes person number ×ˢ cross_nodes person number).filter
      (fun p => p.1 ≠ p.2)) \ algebra

/-- `arc_addition`: close `algebra ∪ S` for every subset `S` of the
candidate pool and collect the distinct closed relations.  The power-set
iterator with `algebra_expansions` and the final `set(frozenset(...))`
deduplication become `Finset.powerset` and `Finset.image`. -/
def arc_addition (algebra : Finset (Node × Node))
    (person number : Finset (Label × Label)) : Finset (Finset (Node × Node)) :=
  (candidate_pool algebra person number).powerset.image
    (fun s => reachability_closure (algebra ∪ s))

/-! ## Pattern canonicalizer (`algebra_interpretation`, `number_to_letter`) -/

/-- The fixed cell presentation order `['1s','2s','3s','1p','2p','3p']`. -/
def presentation : List Node :=
  [('1', 's'), ('2', 's'), ('3', 's'), ('1', 'p'), ('2', 'p'), ('3', 'p')]

/-- The body of `algebra_interpretation`'s outer loop: scan previously
processed positions (`for pos in range(threshold)`), copy the value of the
first mutually related earlier cell, else append `max(syncretism) + 1`. -/
def interp_step (algebra : Finset (Node × Node)) (syncretism : List Nat)
    (cell : Node) : List Nat :=
  match (List.range syncretism.length).find? (fun pos =>
      decide ((presentation.getD pos default, cell) ∈ algebra ∧
              (cell, presentation.getD pos default) ∈ algebra)) with
  | some pos => syncretism ++ [syncretism.getD pos 0]
  | none => syncretism ++ [syncretism.foldl max 0 + 1]

/-- The value appended by one iteration of `interp_step`. -/
def interp_val (algebra : Finset (Node × Node)) (syncretism : List Nat)
    (cell : Node) : Nat :=
  match (List.range syncretism.length).find? (fun pos =>
      decide ((presentation.getD pos default, cell) ∈ algebra ∧
              (cell, presentation.getD pos default) ∈ algebra)) with
  | some pos => syncretism.getD pos 0
  | none => syncretism.foldl max 0 + 1

/-- `algebra_interpretation`: first cell gets `0`, later cells get the
value of the first earlier tied cell, or a fresh `max + 1`. -/
def algebra_interpretation (algebra : Finset (Node × Node)) : List Nat :=
  (presentation.drop 1).foldl (interp_step algebra) [0]

/-- The interpretation state after the first `k` loop iterations. -/
def interp_upto (algebra : Finset (Node × Node)) (k : Nat) : List Nat :=
  ((presentation.drop 1).take k).foldl (interp_step algebra) [0]

/-- `number_to_letter`: `chr(65 + number)` for each value. -/
def number_to_letter (syncretism : List Nat) : List Char :=
  syncretism.map (fun number => Char.ofNat (65 + number))

/-- The shape of every intermediate `syncretism` list built by
`algebra_interpretation`: it starts as `[0]` and each iteration appends
either an already-present value or the current maximum plus one. -/
inductive Canon0 : List Nat → Prop
  | base : Canon0 [0]
  | snoc (s : List Nat) (v : Nat) : Canon0 s →
      (v ∈ s ∨ v = s.foldl max 0 + 1) → Canon0 (s ++ [v])

/-! ## Monotonicity checker (`relabel_algebra`, `test_monotonicity`) -/

/-- `relabel_algebra`: replace each node by its pattern label under
`dict(zip(presentation, syncretism))`.  All arcs of the algebras this is
applied to lie within `presentation`, so the lookup is modelled totally
with a `default` fallback. -/
def relabel_algebra (algebra : Finset (Node × Node)) (syncretism : List Char) :
    Finset (Label × Label) :=
  algebra.image (fun ab =>
    ((((presentation.zip syncretism).find? (fun pr => decide (pr.1 = ab.1))).map
        Prod.snd).getD default,
     (((presentation.zip syncretism).find? (fun pr => decide (pr.1 = ab.2))).map
        Prod.snd).getD default))

/-- `test_monotonicity`: `False` as soon as some relabeled arc `(a, b)`
with `a ≠ b` has its reversal `(b, a)` present, `True` otherwise; the two
early-return loops decide exactly this universal statement. -/
def test_monotonicity (algebra : Finset (Node × Node))
    (syncretism : List Char) : Bool :=
  decide (∀ p ∈ relabel_algebra algebra syncretism, p.1 ≠ p.2 →
    ∀ q ∈ relabel_algebra algebra syncretism, (p.1, p.2) ≠ (q.2, q.1))

/-! ## Sequence canonicalization (`letter_to_number`) -/

/-- The body of `letter_to_number`'s outer loop: scan earlier positions
(`for left in range(pos)`), copy the number of the first equal label, else
append `max(ys) + 1`. -/
def ltn_step {α : Type} [DecidableEq α] [Inhabited α] (xs : List α)
    (ys : List Nat) (x : α) : List Nat :=
  match (List.range ys.length).find? (fun left =>
      decide (xs.getD left default = x)) with
  | some left => ys ++ [ys.getD left 0]
  | none => ys ++ [ys.foldl max 0 + 1]

/-- The value appended by one iteration of `ltn_step`. -/
def ltn_val {α : Type} [DecidableEq α] [Inhabited α] (xs : List α)
    (ys : List Nat) (x : α) : Nat :=
  match (List.range ys.length).find? (fun left =>
      decide (xs.getD left default = x)) with
  | some left => ys.getD left 0
  | none => ys.foldl max 0 + 1

/-- `letter_to_number`: empty input is returned unchanged; otherwise the
first position gets `1` and later positions are numbered by first
occurrence. -/
def letter_to_number {α : Type} [DecidableEq α] [Inhabited α]
    (xs : List α) : List Nat :=
  match xs with
  | [] => []
  | _ :: rest => rest.foldl (ltn_step xs) [1]

/-! ## Closure lemmas -/

section ClosureLemmas

variable {α : Type} [DecidableEq α]

lemma subset_closure_step (R : Finset (α × α)) : R ⊆ closure_step R :=
  Finset.subset_union_left

lemma mem_rel_support_fst {R : Finset (α × α)} {p : α × α} (hp : p ∈ R) :
    p.1 ∈ rel_support R :=
  Finset.mem_union_left _ (Finset.mem_image_of_mem _ hp)

lemma mem_rel_support_snd {R : Finset (α × α)} {p : α × α} (hp : p ∈ R) :
    p.2 ∈ rel_support R :=
  Finset.mem_union_right _ (Finset.mem_image_of_mem _ hp)

lemma mem_rel_support_left {R : Finset (α × α)} {a b : α} (hp : (a, b) ∈ R) :
    a ∈ rel_support R :=
  mem_rel_support_fst hp

lemma mem_rel_support_right {R : Finset (α × α)} {a b : α} (hp : (a, b) ∈ R) :
    b ∈ rel_support R :=
  mem_rel_support_snd hp

lemma subset_support_product (R : Finset (α × α)) :
    R ⊆ rel_support R ×ˢ rel_support R := by
  intro p hp
  exact Finset.mem_product.2 ⟨mem_rel_support_fst hp, mem_rel_support_snd hp⟩

lemma closure_step_subset_support_product (R : Finset (α × α)) :
    closure_step R ⊆ rel_support R ×ˢ rel_support R := by
  intro p hp
  rcases Finset.mem_union.1 hp with h | h
  · exact subset_support_product R h
  · rcases Finset.mem_image.1 h with ⟨pq, hpq, rfl⟩
    have hmem := Finset.mem_filter.1 hpq
    have h1 : pq.1 ∈ R := (Finset.mem_product.1 hmem.1).1
    have h2 : pq.2 ∈ R := (Finset.mem_product.1 hmem.1).2
    have h1' : (pq.1.1, pq.1.2) ∈ R := by simpa using h1
    have h2' : (pq.2.1, pq.2.2) ∈ R := by simpa using h2
    exact Finset.mem_product.2 ⟨mem_rel_support_left h1', mem_rel_support_right h2'⟩

lemma rel_support_closure_step (R : Finset (α × α)) :
    rel_support (closure_step R) = rel_support R := by
  apply Finset.Subset.antisymm
  · intro x hx
    rcases Finset.mem_union.1 hx with h | h
    · rcases Finset.mem_image.1 h with ⟨p, hp, rfl⟩
      exact (Finset.mem_product.1 (closure_step_subset_support_product R hp)).1
    · rcases Finset.mem_image.1 h with ⟨p, hp, rfl⟩
      exact (Finset.mem_product.1 (closure_step_subset_support_product R hp)).2
  · intro x hx
    rcases Finset.mem_union.1 hx with h | h
    · rcases Finset.mem_image.1 h with ⟨p, hp, rfl⟩
      exact Finset.mem_union_left _
        (Finset.mem_image_of_mem _ (subset_closure_step R hp))
    · rcases Finset.mem_image.1 h with ⟨p, hp, rfl⟩
      exact Finset.mem_union_right _
        (Finset.mem_image_of_mem _ (subset_closure_step R hp))

lemma card_lt_card_closure_step {R : Finset (α × α)}
    (h : closure_step R ≠ R) : R.card < (closure_step R).card :=
  Finset.card_lt_card (Finset.ssubset_iff_subset_ne.2 ⟨subset_closure_step R, fun he => h he.symm⟩)

/-- With enough fuel, the iteration reaches the fixpoint of
`closure_step`. -/
lemma closure_step_closure_iter :
    ∀ (n : Nat) (R : Finset (α × α)),
      (rel_support R ×ˢ rel_support R).card ≤ n + R.card →
      closure_step (closure_iter n R) = closure_iter n R := by
  intro n
  induction n with
  | zero =>
      intro R h
      have hRsub : R ⊆ rel_support R ×ˢ rel_support R := subset_support_product R
      have hcard : (rel_support R ×ˢ rel_support R).card ≤ R.card := by simpa using h
      have hEq : R = rel_support R ×ˢ rel_support R :=
        Finset.eq_of_subset_of_card_le hRsub hcard
      have hsub : closure_step R ⊆ R := by
        intro p hp
        have := closure_step_subset_support_product R hp
        rwa [← hEq] at this
      exact Finset.Subset.antisymm hsub (subset_closure_step R)
  | succ n ih =>
      intro R h
      by_cases hfix : closure_step R = R
      · simp [closure_iter, hfix]
      · have hstep : closure_iter (n + 1) R = closure_iter n (closure_step R) := by
          simp [closure_iter, hfix]
        rw [hstep]
        apply ih
        rw [rel_support_closure_step]
        have hlt : R.card < (closure_step R).card := card_lt_card_closure_step hfix
        omega

lemma closure_step_reachability_closure (R : Finset (α × α)) :
    closure_step (reachability_closure R) = reachability_closure R :=
  closure_step_closure_iter _ R (Nat.le_add_right _ _)

lemma subset_closure_iter : ∀ (n : Nat) (R : Finset (α × α)), R ⊆ closure_iter n R := by
  intro n
  induction n with
  | zero => intro R; exact Finset.Subset.refl R
  | succ n ih =>
      intro R
      by_cases hfix : closure_step R = R
      · simp [closure_iter, hfix]
      · have hstep : closure_iter (n + 1) R = closure_iter n (closure_step R) := by
          simp [closure_iter, hfix]
        rw [hstep]
        exact (subset_closure_step R).trans (ih (closure_step R))

lemma subset_reachability_closure (R : Finset (α × α)) :
    R ⊆ reachability_closure R :=
  subset_closure_iter _ R

lemma closedRel_of_closure_step_eq {R : Finset (α × α)}
    (h : closure_step R = R) : closedRel R := by
  intro p hp q hq hpq hne
  have : (p.1, q.2) ∈ closure_step R := by
    apply Finset.mem_union_right
    apply Finset.mem_image.2
    exact ⟨(p, q), Finset.mem_filter.2 ⟨Finset.mem_product.2 ⟨hp, hq⟩, hpq, hne⟩, rfl⟩
  rwa [h] at this

lemma closedRel_reachability_closure (R : Finset (α × α)) :
    closedRel (reachability_closure R) :=
  closedRel_of_closure_step_eq (closure_step_reachability_closure R)

lemma closure_step_subset_of_closed {R Y : Finset (α × α)}
    (hRY : R ⊆ Y) (hY : closedRel Y) : closure_step R ⊆ Y := by
  intro p hp
  rcases Finset.mem_union.1 hp with h | h
  · exact hRY h
  · rcases Finset.mem_image.1 h with ⟨pq, hpq, rfl⟩
    have hmem := Finset.mem_filter.1 hpq
    have h1 : pq.1 ∈ R := (Finset.mem_product.1 hmem.1).1
    have h2 : pq.2 ∈ R := (Finset.mem_product.1 hmem.1).2
    exact hY pq.1 (hRY h1) pq.2 (hRY h2) hmem.2.1 hmem.2.2

lemma closure_iter_subset_of_closed :
    ∀ (n : Nat) (R Y : Finset (α × α)), R ⊆ Y → closedRel Y →
      closure_iter n R ⊆ Y := by
  intro n
  induction n with
  | zero => intro R Y hRY _; exact hRY
  | succ n ih =>
      intro R Y hRY hY
      by_cases hfix : closure_step R = R
      · simpa [closure_iter, hfix] using hRY
      · have hstep : closure_iter (n + 1) R = closure_iter n (closure_step R) := by
          simp [closure_iter, hfix]
        rw [hstep]
        exact ih (closure_step R) Y (closure_step_subset_of_closed hRY hY) hY

lemma reachability_closure_subset_of_closed {R Y : Finset (α × α)}
    (hRY : R ⊆ Y) (hY : closedRel Y) : reachability_closure R ⊆ Y :=
  closure_iter_subset_of_closed _ R Y hRY hY

lemma closure_iter_of_fixpoint {R : Finset (α × α)} (h : closure_step R = R) :
    ∀ n, closure_iter n R = R := by
  intro n
  cases n with
  | zero => rfl
  | succ n => simp [closure_iter, h]

lemma reachability_closure_of_fixpoint {R : Finset (α × α)}
    (h : closure_step R = R) : reachability_closure R = R :=
  closure_iter_of_fixpoint h _

lemma closure_step_irrefl {R : Finset (α × α)}
    (h : ∀ p ∈ R, p.1 ≠ p.2) : ∀ p ∈ closure_step R, p.1 ≠ p.2 := by
  intro p hp
  rcases Finset.mem_union.1 hp with hm | hm
  · exact h p hm
  · rcases Finset.mem_image.1 hm with ⟨pq, hpq, rfl⟩
    exact (Finset.mem_filter.1 hpq).2.2

lemma closure_iter_irrefl :
    ∀ (n : Nat) (R : Finset (α × α)), (∀ p ∈ R, p.1 ≠ p.2) →
      ∀ p ∈ closure_iter n R, p.1 ≠ p.2 := by
  intro n
  induction n with
  | zero => intro R h; exact h
  | succ n ih =>
      intro R h
      by_cases hfix : closure_step R = R
      · simpa [closure_iter, hfix] using h
      · have hstep : closure_iter (n + 1) R = closure_iter n (closure_step R) := by
          simp [closure_iter, hfix]
        rw [hstep]
        exact ih (closure_step R) (closure_step_irrefl h)

end ClosureLemmas

/-! ## Cross-product lemmas -/

lemma mem_crossalgebra_rel_iff_some_mem
    {person number : Finset (Label × Label)} {x : Node × Node} :
    x ∈ crossalgebra_rel person number ↔ some x ∈ cross_output person number := by
  unfold crossalgebra_rel
  constructor
  · intro hx
    rcases Finset.mem_image.1 hx with ⟨o, ho, hox⟩
    have hne : o ≠ none := Finset.ne_of_mem_erase ho
    rcases o with _ | y
    · exact absurd rfl hne
    · have : y = x := by simpa using hox
      subst this
      exact Finset.mem_of_mem_erase ho
  · intro hx
    apply Finset.mem_image.2
    exact ⟨some x, Finset.mem_erase.2 ⟨by simp, hx⟩, rfl⟩

lemma add_ranking_eq_some_iff {n1 n2 : Node}
    {person number : Finset (Label × Label)} {x : Node × Node} :
    add_ranking n1 n2 person number = some x ↔
      x = (n1, n2) ∧ n1 ≠ n2 ∧
        (n1.1 = n2.1 ∨ (n1.1, n2.1) ∈ person) ∧
        (n1.2 = n2.2 ∨ (n1.2, n2.2) ∈ number) := by
  unfold add_ranking
  split
  · rename_i h
    constructor
    · intro he
      refine ⟨by simpa using he.symm, h⟩
    · intro he
      simp [he.1]
  · rename_i h
    constructor
    · intro he
      simp at he
    · intro he
      exact absurd he.2 h

/-- Membership characterization of the cross-product base relation. -/
lemma mem_crossalgebra_rel {person number : Finset (Label × Label)}
    {n1 n2 : Node} :
    (n1, n2) ∈ crossalgebra_rel person number ↔
      n1 ∈ cross_nodes person number ∧ n2 ∈ cross_nodes person number ∧
      n1 ≠ n2 ∧
      (n1.1 = n2.1 ∨ (n1.1, n2.1) ∈ person) ∧
      (n1.2 = n2.2 ∨ (n1.2, n2.2) ∈ number) := by
  rw [mem_crossalgebra_rel_iff_some_mem]
  unfold cross_output
  constructor
  · intro h
    rcases Finset.mem_image.1 h with ⟨nm, hnm, heq⟩
    have hmem := Finset.mem_product.1 hnm
    rcases add_ranking_eq_some_iff.1 heq with ⟨hx, hne, hp, hn⟩
    have h1 : nm.1 = n1 := by
      have := congrArg Prod.fst hx
      simpa using this.symm
    have h2 : nm.2 = n2 := by
      have := congrArg Prod.snd hx
      simpa using this.symm
    rw [h1] at hmem hne hp hn
    rw [h2] at hmem hne hp hn
    exact ⟨hmem.1, hmem.2, hne, hp, hn⟩
  · intro ⟨h1, h2, hne, hp, hn⟩
    apply Finset.mem_image.2
    refine ⟨(n1, n2), Finset.mem_product.2 ⟨h1, h2⟩, ?_⟩
    exact add_ranking_eq_some_iff.2 ⟨rfl, hne, hp, hn⟩

lemma extract_elements_nonempty {h : Finset (Label × Label)} (hne : h ≠ ∅) :
    (extract_elements h).Nonempty := by
  rcases Finset.nonempty_iff_ne_empty.2 hne with ⟨p, hp⟩
  exact ⟨p.1, Finset.mem_union_left _ (Finset.mem_image_of_mem _ hp)⟩

lemma none_mem_cross_output {person number : Finset (Label × Label)}
    (hp : (extract_elements person).Nonempty)
    (hn : (extract_elements number).Nonempty) :
    none ∈ cross_output person number := by
  rcases hp with ⟨x, hx⟩
  rcases hn with ⟨y, hy⟩
  have hnode : (x, y) ∈ cross_nodes person number :=
    Finset.mem_product.2 ⟨hx, hy⟩
  apply Finset.mem_image.2
  refine ⟨((x, y), (x, y)), Finset.mem_product.2 ⟨hnode, hnode⟩, ?_⟩
  simp [add_ranking]

lemma cross_output_of_empty_left {number : Finset (Label × Label)} :
    cross_output ∅ number = ∅ := by
  simp [cross_output, cross_nodes, extract_elements]

lemma cross_output_of_empty_right {person : Finset (Label × Label)} :
    cross_output person ∅ = ∅ := by
  simp [cross_output, cross_nodes, extract_elements]

/-! ## Extension-search lemmas -/

lemma powerset_single {β : Type} [DecidableEq β] (a : β) :
    ({a} : Finset β).powerset = {∅, {a}} := by
  ext s
  simp [Finset.subset_singleton_iff]

lemma mem_arc_addition {algebra : Finset (Node × Node)}
    {person number : Finset (Label × Label)} {X : Finset (Node × Node)} :
    X ∈ arc_addition algebra person number ↔
      ∃ s, s ⊆ candidate_pool algebra person number ∧
        X = reachability_closure (algebra ∪ s) := by
  unfold arc_addition
  constructor
  · intro h
    rcases Finset.mem_image.1 h with ⟨s, hs, rfl⟩
    exact ⟨s, Finset.mem_powerset.1 hs, rfl⟩
  · rintro ⟨s, hs, rfl⟩
    exact Finset.mem_image.2 ⟨s, Finset.mem_powerset.2 hs, rfl⟩

/-! ## Interpretation lemmas -/

lemma interp_step_eq_append (R : Finset (Node × Node)) (s : List Nat) (c : Node) :
    interp_step R s c = s ++ [interp_val R s c] := by
  unfold interp_step interp_val
  cases hf : (List.range s.length).find? (fun pos =>
      decide ((presentation.getD pos default, c) ∈ R ∧
              (c, presentation.getD pos default) ∈ R)) <;> simp [hf]

lemma interp_upto_zero (R : Finset (Node × Node)) : interp_upto R 0 = [0] := rfl

lemma presentation_drop_one_getElem (k : Nat) (hk : k < 5) :
    (presentation.drop 1)[k]? = some (presentation.getD (k + 1) default) := by
  interval_cases k <;> rfl

lemma interp_upto_succ (R : Finset (Node × Node)) (k : Nat) (hk : k < 5) :
    interp_upto R (k + 1) =
      interp_step R (interp_upto R k) (presentation.getD (k + 1) default) := by
  unfold interp_upto
  rw [List.take_succ, List.foldl_append, presentation_drop_one_getElem k hk]
  rfl

lemma interp_upto_length (R : Finset (Node × Node)) :
    ∀ k, k ≤ 5 → (interp_upto R k).length = k + 1 := by
  intro k
  induction k with
  | zero => intro _; rfl
  | succ k ih =>
      intro hk
      rw [interp_upto_succ R k (by omega), interp_step_eq_append,
        List.length_append, ih (by omega)]
      rfl

lemma algebra_interpretation_eq_upto (R : Finset (Node × Node)) :
    algebra_interpretation R = interp_upto R 5 := rfl

lemma interp_upto_add (R : Finset (Node × Node)) :
    ∀ (j k : Nat), k + j ≤ 5 →
      ∃ t, interp_upto R (k + j) = interp_upto R k ++ t := by
  intro j
  induction j with
  | zero => intro k _; exact ⟨[], by simp⟩
  | succ j ih =>
      intro k hk
      obtain ⟨t, ht⟩ := ih k (by omega)
      refine ⟨t ++ [interp_val R (interp_upto R (k + j))
          (presentation.getD (k + j + 1) default)], ?_⟩
      have hkj : k + (j + 1) = (k + j) + 1 := by omega
      rw [hkj, interp_upto_succ R (k + j) (by omega), interp_step_eq_append, ht,
        List.append_assoc]

lemma interpretation_suffix (R : Finset (Node × Node)) (k : Nat) (hk : k ≤ 5) :
    ∃ t, algebra_interpretation R = interp_upto R k ++ t := by
  obtain ⟨t, ht⟩ := interp_upto_add R (5 - k) k (by omega)
  have h5 : k + (5 - k) = 5 := by omega
  rw [h5] at ht
  exact ⟨t, by rw [algebra_interpretation_eq_upto]; exact ht⟩

lemma interpretation_take (R : Finset (Node × Node)) (k : Nat) (hk : k ≤ 5) :
    (algebra_interpretation R).take (k + 1) = interp_upto R k := by
  obtain ⟨t, ht⟩ := interpretation_suffix R k hk
  rw [ht, ← interp_upto_length R k hk, List.take_left]

lemma interpretation_getD (R : Finset (Node × Node)) (k : Nat) (hk : k < 5) :
    (algebra_interpretation R).getD (k + 1) 0 =
      interp_val R (interp_upto R k) (presentation.getD (k + 1) default) := by
  obtain ⟨t, ht⟩ := interpretation_suffix R (k + 1) (by omega)
  rw [interp_upto_succ R k hk, interp_step_eq_append, List.append_assoc] at ht
  rw [ht, List.getD_append_right _ _ _ _ (by rw [interp_upto_length R k (by omega)]),
    interp_upto_length R k (by omega)]
  simp

/-! ## Canonical-shape lemmas for the amended `letter_to_number` claim -/

lemma canon0_ne_nil {s : List Nat} (h : Canon0 s) : s ≠ [] := by
  cases h with
  | base => simp
  | snoc s v _ _ => simp

lemma foldl_max_le {B : Nat} :
    ∀ (s : List Nat) (a : Nat), a ≤ B → (∀ u ∈ s, u ≤ B) → s.foldl max a ≤ B := by
  intro s
  induction s with
  | nil => intro a ha _; exact ha
  | cons x t ih =>
      intro a ha hall
      exact ih (max a x) (max_le ha (hall x (by simp)))
        (fun u hu => hall u (by simp [hu]))

lemma canon0_lt_length {s : List Nat} (h : Canon0 s) : ∀ v ∈ s, v < s.length := by
  induction h with
  | base =>
      intro v hv
      simp only [List.mem_singleton] at hv
      simp [hv]
  | snoc s w hs hw ih =>
      intro v hv
      rw [List.length_append]
      rcases List.mem_append.1 hv with hm | hm
      · have := ih v hm
        simp only [List.length_singleton]
        omega
      · simp only [List.mem_singleton] at hm
        subst hm
        rcases hw with hw | hw
        · have := ih v hw
          simp only [List.length_singleton]
          omega
        · have hlen : 1 ≤ s.length := by
            cases s with
            | nil => exact absurd rfl (canon0_ne_nil hs)
            | cons a t => simp
          have hmax : s.foldl max 0 ≤ s.length - 1 :=
            foldl_max_le s 0 (by omega) (fun u hu => by have := ih u hu; omega)
          simp only [List.length_singleton]
          omega

lemma foldl_max_map_succ_aux :
    ∀ (t : List Nat) (a : Nat),
      (t.map (fun n => n + 1)).foldl max (a + 1) = t.foldl max a + 1 := by
  intro t
  induction t with
  | nil => intro a; rfl
  | cons x t ih =>
      intro a
      simp only [List.map_cons, List.foldl_cons]
      have hmx : max (a + 1) (x + 1) = max a x + 1 := by omega
      rw [hmx]
      exact ih (max a x)

lemma foldl_max_map_succ (s : List Nat) (hs : s ≠ []) :
    (s.map (fun n => n + 1)).foldl max 0 = s.foldl max 0 + 1 := by
  cases s with
  | nil => exact absurd rfl hs
  | cons x t =>
      simp only [List.map_cons, List.foldl_cons]
      have h1 : max 0 (x + 1) = x + 1 := by omega
      have h2 : max 0 x = x := by omega
      rw [h1, h2, foldl_max_map_succ_aux]

lemma find_congr {β : Type} :
    ∀ (l : List β) (p q : β → Bool), (∀ x ∈ l, p x = q x) →
      l.find? p = l.find? q := by
  intro l
  induction l with
  | nil => intro p q _; rfl
  | cons a t ih =>
      intro p q h
      rw [List.find?_cons, List.find?_cons, h a (List.mem_cons_self a t)]
      cases hq : q a
      · exact ih p q (fun x hx => h x (List.mem_cons_of_mem _ hx))
      · rfl

/-! ## `letter_to_number` fold lemmas -/

section LtnLemmas

variable {α : Type} [DecidableEq α] [Inhabited α]

lemma ltn_step_eq_append (xs : List α) (ys : List Nat) (x : α) :
    ltn_step xs ys x = ys ++ [ltn_val xs ys x] := by
  unfold ltn_step ltn_val
  cases hf : (List.range ys.length).find? (fun left =>
      decide (xs.getD left default = x)) <;> simp [hf]

lemma ltn_fold_length (xs : List α) :
    ∀ (l : List α) (ys : List Nat),
      (l.foldl (ltn_step xs) ys).length = ys.length + l.length := by
  intro l
  induction l with
  | nil => intro ys; simp
  | cons x t ih =>
      intro ys
      rw [List.foldl_cons, ih, ltn_step_eq_append, List.length_append]
      simp only [List.length_singleton, List.length_cons, List.length_nil]
      omega

lemma ltn_val_congr (xs1 xs2 : List α) (ys : List Nat) (x : α)
    (h : ∀ k < ys.length, xs1.getD k default = xs2.getD k default) :
    ltn_val xs1 ys x = ltn_val xs2 ys x := by
  unfold ltn_val
  rw [find_congr (List.range ys.length)
    (fun left => decide (xs1.getD left default = x))
    (fun left => decide (xs2.getD left default = x))
    (fun k hk => by simp only [h k (List.mem_range.1 hk)])]

lemma ltn_step_congr (xs1 xs2 : List α) (ys : List Nat) (x : α)
    (h : ∀ k < ys.length, xs1.getD k default = xs2.getD k default) :
    ltn_step xs1 ys x = ltn_step xs2 ys x := by
  rw [ltn_step_eq_append, ltn_step_eq_append, ltn_val_congr xs1 xs2 ys x h]

lemma ltn_fold_congr (xs1 xs2 : List α) :
    ∀ (l : List α) (ys : List Nat),
      (∀ k < ys.length + l.length, xs1.getD k default = xs2.getD k default) →
      l.foldl (ltn_step xs1) ys = l.foldl (ltn_step xs2) ys := by
  intro l
  induction l with
  | nil => intro ys _; rfl
  | cons x t ih =>
      intro ys h
      rw [List.foldl_cons, List.foldl_cons,
        ltn_step_congr xs1 xs2 ys x (fun k hk => h k (by simp; omega))]
      apply ih
      intro k hk
      apply h
      rw [ltn_step_eq_append, List.length_append] at hk
      simp only [List.length_singleton] at hk
      simp only [List.length_cons]
      omega

lemma ltn_cons (x0 : α) (rest : List α) :
    letter_to_number (x0 :: rest) = rest.foldl (ltn_step (x0 :: rest)) [1] := rfl

lemma ltn_snoc (x0 : α) (rest : List α) (x : α) :
    letter_to_number (x0 :: (rest ++ [x])) =
      letter_to_number (x0 :: rest) ++
        [ltn_val (x0 :: rest) (letter_to_number (x0 :: rest)) x] := by
  have hpre : ∀ k < 1 + rest.length,
      (x0 :: (rest ++ [x])).getD k default = (x0 :: rest).getD k default := by
    intro k hk
    have hsh : x0 :: (rest ++ [x]) = (x0 :: rest) ++ [x] := rfl
    rw [hsh, List.getD_append _ _ _ _ (by simp only [List.length_cons]; omega)]
  have h1 : letter_to_number (x0 :: (rest ++ [x])) =
      (rest ++ [x]).foldl (ltn_step (x0 :: (rest ++ [x]))) [1] := rfl
  rw [h1, List.foldl_append]
  have h2 : rest.foldl (ltn_step (x0 :: (rest ++ [x]))) [1] =
      rest.foldl (ltn_step (x0 :: rest)) [1] :=
    ltn_fold_congr _ _ rest [1]
      (fun k hk => hpre k (by simp only [List.length_singleton] at hk; omega))
  rw [h2, ← ltn_cons, List.foldl_cons, List.foldl_nil, ltn_step_eq_append]
  have hlen : (letter_to_number (x0 :: rest)).length = 1 + rest.length := by
    rw [ltn_cons, ltn_fold_length]
    rfl
  rw [ltn_val_congr (x0 :: (rest ++ [x])) (x0 :: rest) _ x
    (fun k hk => hpre k (by rw [hlen] at hk; exact hk))]

lemma ltn_fold_head (xs : List α) :
    ∀ (l : List α) (ys : List Nat), ys ≠ [] →
      (l.foldl (ltn_step xs) ys).head? = ys.head? := by
  intro l
  induction l with
  | nil => intro ys _; rfl
  | cons x t ih =>
      intro ys hys
      rw [List.foldl_cons]
      have hne : ltn_step xs ys x ≠ [] := by
        rw [ltn_step_eq_append]
        simp
      rw [ih (ltn_step xs ys x) hne, ltn_step_eq_append, List.head?_append]
      cases ys with
      | nil => exact absurd rfl hys
      | cons a t' => rfl

end LtnLemmas

/-! ## Canonical shape of the interpretation output -/

lemma canon0_interp_step (R : Finset (Node × Node)) (s : List Nat) (c : Node)
    (hs : Canon0 s) : Canon0 (interp_step R s c) := by
  rw [interp_step_eq_append]
  refine Canon0.snoc s _ hs ?_
  unfold interp_val
  cases hf : (List.range s.length).find? (fun pos =>
      decide ((presentation.getD pos default, c) ∈ R ∧
              (c, presentation.getD pos default) ∈ R)) with
  | some pos =>
      simp only [hf]
      left
      have hlt : pos < s.length := List.mem_range.1 (List.mem_of_find?_eq_some hf)
      rw [List.getD_eq_getElem _ _ hlt]
      exact List.getElem_mem hlt
  | none =>
      simp only [hf]
      right
      trivial

lemma canon0_foldl (R : Finset (Node × Node)) :
    ∀ (l : List Node) (s : List Nat), Canon0 s →
      Canon0 (l.foldl (interp_step R) s) := by
  intro l
  induction l with
  | nil => intro s hs; exact hs
  | cons c t ih =>
      intro s hs
      exact ih (interp_step R s c) (canon0_interp_step R s c hs)

lemma canon0_interpretation (R : Finset (Node × Node)) :
    Canon0 (algebra_interpretation R) :=
  canon0_foldl R (presentation.drop 1) [0] Canon0.base

lemma interpretation_bound (R : Finset (Node × Node)) :
    ∀ v ∈ algebra_interpretation R, v < 30 := by
  intro v hv
  have h6 : (algebra_interpretation R).length = 6 := by
    rw [algebra_interpretation_eq_upto]
    exact interp_upto_length R 5 (by omega)
  have := canon0_lt_length (canon0_interpretation R) v hv
  omega

lemma char_ofNat_inj_small :
    ∀ a : Nat, a < 30 → ∀ b : Nat, b < 30 →
      Char.ofNat (65 + a) = Char.ofNat (65 + b) → a = b := by
  decide

/-- The value `letter_to_number` appends for the last element of a
canonical sequence mapped through letters: always the element plus one. -/
lemma ltn_val_of_canon (s : List Nat) (v : Nat) (hs : Canon0 s)
    (hbs : ∀ u ∈ s, u < 30) (hbv : v < 30)
    (hv : v ∈ s ∨ v = s.foldl max 0 + 1) :
    ltn_val (s.map (fun n => Char.ofNat (65 + n)))
      (s.map (fun n => n + 1)) (Char.ofNat (65 + v)) = v + 1 := by
  unfold ltn_val
  rw [List.length_map]
  cases hf : (List.range s.length).find? (fun left =>
      decide ((s.map (fun n => Char.ofNat (65 + n))).getD left default =
        Char.ofNat (65 + v))) with
  | some left =>
      simp only [hf]
      have hlt : left < s.length := List.mem_range.1 (List.mem_of_find?_eq_some hf)
      have hpred := List.find?_some
        (p := fun left => decide ((s.map (fun n => Char.ofNat (65 + n))).getD left default =
          Char.ofNat (65 + v))) hf
      have heq : (s.map (fun n => Char.ofNat (65 + n))).getD left default =
          Char.ofNat (65 + v) := of_decide_eq_true (by simpa using hpred)
      have hmap : (s.map (fun n => Char.ofNat (65 + n))).getD left default =
          Char.ofNat (65 + s.getD left 0) := by
        rw [List.getD_eq_getElem _ _ (by simpa using hlt),
          List.getD_eq_getElem _ _ hlt, List.getElem_map]
      have hmem : s.getD left 0 ∈ s := by
        rw [List.getD_eq_getElem _ _ hlt]
        exact List.getElem_mem hlt

      have hsl : s.getD left 0 = v :=
        char_ofNat_inj_small (s.getD left 0) (hbs _ hmem) v hbv (hmap ▸ heq)
      have hval : (s.map (fun n => n + 1)).getD left 0 = s.getD left 0 + 1 := by
        rw [List.getD_eq_getElem _ _ (by simpa using hlt),
          List.getD_eq_getElem _ _ hlt, List.getElem_map]
      rw [hval, hsl]
  | none =>
      simp only [hf]
      have hvn : v ∉ s := by
        intro hvs
        obtain ⟨left, hlt, hget⟩ := List.mem_iff_getElem.1 hvs
        have hnone := List.find?_eq_none.1 hf left (List.mem_range.2 hlt)
        apply hnone
        apply decide_eq_true
        rw [List.getD_eq_getElem _ _ (by simpa using hlt), List.getElem_map, hget]
      have hvmax : v = s.foldl max 0 + 1 := hv.resolve_left hvn
      rw [foldl_max_map_succ s (canon0_ne_nil hs), hvmax]

/-- Any canonical sequence (small enough for letter coding to be
injective) is recovered, shifted by one, by `letter_to_number`. -/
lemma canon0_ltn_map {s : List Nat} (hs : Canon0 s) :
    (∀ v ∈ s, v < 30) →
      letter_to_number (s.map (fun n => Char.ofNat (65 + n))) =
        s.map (fun n => n + 1) := by
  induction hs with
  | base => intro _; rfl
  | snoc s v hsc hv ih =>
      intro hbound
      have hbs : ∀ u ∈ s, u < 30 :=
        fun u hu => hbound u (List.mem_append.2 (Or.inl hu))
      have hbv : v < 30 := hbound v (List.mem_append.2 (Or.inr (by simp)))
      obtain ⟨s0, s', rfl⟩ : ∃ s0 s', s = s0 :: s' := by
        cases s with
        | nil => exact absurd rfl (canon0_ne_nil hsc)
        | cons a t => exact ⟨a, t, rfl⟩
      rw [List.map_append, List.map_append]
      have hshape : (List.map (fun n => Char.ofNat (65 + n)) (s0 :: s')) ++
          (List.map (fun n => Char.ofNat (65 + n)) [v]) =
          Char.ofNat (65 + s0) ::
            (List.map (fun n => Char.ofNat (65 + n)) s' ++ [Char.ofNat (65 + v)]) := rfl
      rw [hshape, ltn_snoc]
      have hback : Char.ofNat (65 + s0) :: List.map (fun n => Char.ofNat (65 + n)) s' =
          List.map (fun n => Char.ofNat (65 + n)) (s0 :: s') := rfl
      rw [hback, ih hbs, ltn_val_of_canon (s0 :: s') v hsc hbs hbv hv]
      rfl

/-! ## Claim theorems -/

/-- C2: `reachability_closure` returns the least relation containing `R`
that is closed under adding `(a, c)` for composable arcs `(a, b)`, `(b, c)`
with `a ≠ c`; on `{(A,B),(B,C)}` it returns `{(A,B),(B,C),(A,C)}`. -/
theorem reachability_closure_least_fixpoint :
    (∀ (α : Type) [DecidableEq α] (R : Finset (α × α)),
      R ⊆ reachability_closure R ∧
      (∀ a b c : α, (a, b) ∈ reachability_closure R →
        (b, c) ∈ reachability_closure R → a ≠ c →
        (a, c) ∈ reachability_closure R) ∧
      (∀ Y, R ⊆ Y → closedRel Y → reachability_closure R ⊆ Y)) ∧
    reachability_closure ({('A', 'B'), ('B', 'C')} : Finset (Char × Char)) =
      {('A', 'B'), ('B', 'C'), ('A', 'C')} := by
  constructor
  · intro α _ R
    refine ⟨subset_reachability_closure R, ?_, ?_⟩
    · intro a b c hab hbc hne
      exact closedRel_reachability_closure R (a, b) hab (b, c) hbc rfl hne
    · intro Y hRY hY
      exact reachability_closure_subset_of_closed hRY hY
  · decide

/-- Witness for C2: the minimality part applied at the concrete input. -/
theorem reachability_closure_least_fixpoint_witness :
    ({('A', 'B'), ('B', 'C')} : Finset (Char × Char)) ⊆
        {('A', 'B'), ('B', 'C'), ('A', 'C')} ∧
    closedRel ({('A', 'B'), ('B', 'C'), ('A', 'C')} : Finset (Char × Char)) ∧
    reachability_closure ({('A', 'B'), ('B', 'C')} : Finset (Char × Char)) ⊆
        {('A', 'B'), ('B', 'C'), ('A', 'C')} :=
  ⟨by decide, by decide,
    (reachability_closure_least_fixpoint.1 Char {('A', 'B'), ('B', 'C')}).2.2
      {('A', 'B'), ('B', 'C'), ('A', 'C')} (by decide) (by decide)⟩

/-- C6: transitive closure is idempotent. -/
theorem reachability_closure_idempotent :
    ∀ (α : Type) [DecidableEq α] (R : Finset (α × α)),
      reachability_closure (reachability_closure R) = reachability_closure R := by
  intro α _ R
  exact reachability_closure_of_fixpoint (closure_step_reachability_closure R)

/-- C7: closure preserves irreflexivity — the `a ≠ c` guard never adds a
self-loop, even over 2-cycles. -/
theorem reachability_closure_preserves_irreflexive :
    ∀ (α : Type) [DecidableEq α] (R : Finset (α × α)),
      (∀ p ∈ R, p.1 ≠ p.2) → ∀ p ∈ reachability_closure R, p.1 ≠ p.2 := by
  intro α _ R h
  exact closure_iter_irrefl _ R h

/-- Witness for C7: the closure of the 2-cycle `{(A,B),(B,A)}` has no
self-loop at `A`. -/
theorem reachability_closure_preserves_irreflexive_witness :
    (('A', 'A') : Char × Char) ∉
      reachability_closure ({('A', 'B'), ('B', 'A')} : Finset (Char × Char)) :=
  fun hmem =>
    reachability_closure_preserves_irreflexive Char {('A', 'B'), ('B', 'A')}
      (by decide) ('A', 'A') hmem rfl

/-- C1: `arc_addition` returns exactly the closures of `algebra ∪ S` for
the subsets `S` of the candidate pool (empty subset included, duplicates
merged); with a one-arc pool the result has at most 2 elements, and
exactly 2 when adding the arc changes the closure. -/
theorem arc_addition_enumerates_closures :
    ∀ (algebra : Finset (Node × Node)) (person number : Finset (Label × Label)),
      (∀ X, X ∈ arc_addition algebra person number ↔
        ∃ s, s ⊆ candidate_pool algebra person number ∧
          X = reachability_closure (algebra ∪ s)) ∧
      (∀ a, candidate_pool algebra person number = {a} →
        (arc_addition algebra person number).card ≤ 2 ∧
        (reachability_closure (algebra ∪ {a}) ≠ reachability_closure algebra →
          (arc_addition algebra person number).card = 2)) := by
  intro algebra person number
  constructor
  · intro X
    exact mem_arc_addition
  · intro a hpool
    have himg : arc_addition algebra person number =
        insert (reachability_closure algebra)
          {reachability_closure (algebra ∪ {a})} := by
      unfold arc_addition
      rw [hpool, powerset_single, Finset.image_insert,
        Finset.image_singleton, Finset.union_empty]
    constructor
    · rw [himg]
      exact (Finset.card_insert_le _ _).trans (by simp)
    · intro hne
      rw [himg, Finset.card_insert_of_not_mem (by simpa using hne.symm),
        Finset.card_singleton]

/-- Witness for C1: a concrete two-node universe whose candidate pool is
the single reverse arc, where adding it changes the closure. -/
theorem arc_addition_enumerates_closures_witness :
    candidate_pool {((('1', 's') : Node), (('2', 's') : Node))} {('1', '2')}
        {('s', 's')} = {((('2', 's') : Node), (('1', 's') : Node))} ∧
    reachability_closure
        ({((('1', 's') : Node), (('2', 's') : Node))} ∪
          {((('2', 's') : Node), (('1', 's') : Node))}) ≠
      reachability_closure {((('1', 's') : Node), (('2', 's') : Node))} ∧
    (arc_addition {((('1', 's') : Node), (('2', 's') : Node))} {('1', '2')}
        {('s', 's')}).card = 2 :=
  ⟨by decide, by decide,
    ((arc_addition_enumerates_closures {((('1', 's') : Node), (('2', 's') : Node))}
        {('1', '2')} {('s', 's')}).2 ((('2', 's') : Node), (('1', 's') : Node))
      (by decide)).2 (by decide)⟩

/-- C5: the cross-product base relation contains `(n1, n2)` for distinct
universe nodes iff `n1` is equal-or-before `n2` on the person dimension and
equal-or-before on the number dimension; concrete checks for the
`123`/`sp` hierarchies. -/
theorem crossalgebra_rel_spec :
    (∀ (person number : Finset (Label × Label)) (n1 n2 : Node),
      n1 ∈ cross_nodes person number → n2 ∈ cross_nodes person number →
      n1 ≠ n2 →
      ((n1, n2) ∈ crossalgebra_rel person number ↔
        (n1.1 = n2.1 ∨ (n1.1, n2.1) ∈ person) ∧
        (n1.2 = n2.2 ∨ (n1.2, n2.2) ∈ number))) ∧
    ((('1', 's'), (('2', 's') : Node)) ∈ crossalgebra_rel person_hrcs_123 number_hrcs_sp ∧
     ((('2', 's'), (('3', 's') : Node)) ∈ crossalgebra_rel person_hrcs_123 number_hrcs_sp) ∧
     ((('1', 's'), (('1', 'p') : Node)) ∈ crossalgebra_rel person_hrcs_123 number_hrcs_sp) ∧
     ((('1', 'p'), (('1', 's') : Node)) ∉ crossalgebra_rel person_hrcs_123 number_hrcs_sp) ∧
     ((('2', 'p'), (('1', 's') : Node)) ∉ crossalgebra_rel person_hrcs_123 number_hrcs_sp)) := by
  constructor
  · intro person number n1 n2 h1 h2 hne
    rw [mem_crossalgebra_rel]
    constructor
    · intro h
      exact ⟨h.2.2.2.1, h.2.2.2.2⟩
    · intro h
      exact ⟨h1, h2, hne, h.1, h.2⟩
  · exact ⟨by decide, by decide, by decide, by decide, by decide⟩

/-- Witness for C5: the characterization applied to `1s`, `2s` in the
`123`/`sp` universe. -/
theorem crossalgebra_rel_spec_witness :
    ((('1', 's') : Node) ∈ cross_nodes person_hrcs_123 number_hrcs_sp ∧
     (('2', 's') : Node) ∈ cross_nodes person_hrcs_123 number_hrcs_sp ∧
     (('1', 's') : Node) ≠ (('2', 's') : Node)) ∧
    (((('1', 's'), (('2', 's') : Node)) ∈ crossalgebra_rel person_hrcs_123 number_hrcs_sp) ↔
      ((('1', 's') : Node).1 = (('2', 's') : Node).1 ∨
        ((('1', 's') : Node).1, (('2', 's') : Node).1) ∈ person_hrcs_123) ∧
      ((('1', 's') : Node).2 = (('2', 's') : Node).2 ∨
        ((('1', 's') : Node).2, (('2', 's') : Node).2) ∈ number_hrcs_sp)) :=
  ⟨⟨by decide, by decide, by decide⟩,
    crossalgebra_rel_spec.1 person_hrcs_123 number_hrcs_sp ('1', 's') ('2', 's')
      (by decide) (by decide) (by decide)⟩

/-- C4: `test_monotonicity` returns `false` iff the relabeled relation has
two arcs `(a,b)`, `(c,d)` with `a ≠ b` and `(a,b) = (d,c)`; in particular
any mutual pair `(p,q)`, `(q,p)` with `p ≠ q` forces `false`. -/
theorem test_monotonicity_reversal :
    (∀ (algebra : Finset (Node × Node)) (syncretism : List Char),
      (test_monotonicity algebra syncretism = false ↔
        ∃ a b c d, (a, b) ∈ relabel_algebra algebra syncretism ∧
          (c, d) ∈ relabel_algebra algebra syncretism ∧
          a ≠ b ∧ (a, b) = (d, c))) ∧
    (∀ (algebra : Finset (Node × Node)) (syncretism : List Char) (p q : Label),
      p ≠ q → (p, q) ∈ relabel_algebra algebra syncretism →
      (q, p) ∈ relabel_algebra algebra syncretism →
      test_monotonicity algebra syncretism = false) := by
  have hmain : ∀ (algebra : Finset (Node × Node)) (syncretism : List Char),
      (test_monotonicity algebra syncretism = false ↔
        ∃ a b c d, (a, b) ∈ relabel_algebra algebra syncretism ∧
          (c, d) ∈ relabel_algebra algebra syncretism ∧
          a ≠ b ∧ (a, b) = (d, c)) := by
    intro algebra syncretism
    unfold test_monotonicity
    rw [decide_eq_false_iff_not]
    push_neg
    constructor
    · rintro ⟨p, hp, hne, q, hq, heq⟩
      exact ⟨p.1, p.2, q.1, q.2, by simpa using hp, by simpa using hq, hne, heq⟩
    · rintro ⟨a, b, c, d, hab, hcd, hne, heq⟩
      exact ⟨(a, b), hab, hne, (c, d), hcd, heq⟩
  refine ⟨hmain, ?_⟩
  intro algebra syncretism p q hne hpq hqp
  exact (hmain algebra syncretism).2 ⟨p, q, q, p, hpq, hqp, hne, rfl⟩

/-- Witness for C4: a base algebra with an upward arc `1s → 2s` and a
downward arc `2p → 1p` collapses under the pattern `ABCABF` to `(A,B)` and
`(B,A)`, so it is reported non-monotonic. -/
theorem test_monotonicity_reversal_witness :
    ('A' ≠ 'B' ∧
      (('A', 'B') ∈ relabel_algebra
        {((('1', 's') : Node), (('2', 's') : Node)),
         ((('2', 'p') : Node), (('1', 'p') : Node))} ['A', 'B', 'C', 'A', 'B', 'F']) ∧
      (('B', 'A') ∈ relabel_algebra
        {((('1', 's') : Node), (('2', 's') : Node)),
         ((('2', 'p') : Node), (('1', 'p') : Node))} ['A', 'B', 'C', 'A', 'B', 'F'])) ∧
    test_monotonicity
      {((('1', 's') : Node), (('2', 's') : Node)),
       ((('2', 'p') : Node), (('1', 'p') : Node))} ['A', 'B', 'C', 'A', 'B', 'F'] = false :=
  ⟨⟨by decide, by decide, by decide⟩,
    test_monotonicity_reversal.2
      {((('1', 's') : Node), (('2', 's') : Node)),
       ((('2', 'p') : Node), (('1', 'p') : Node))} ['A', 'B', 'C', 'A', 'B', 'F']
      'A' 'B' (by decide) (by decide) (by decide)⟩

/-- C3: `algebra_interpretation` processes the cells in the fixed order,
gives the first cell value `0`, and gives cell `i` the value of the first
earlier cell mutually related to it, or `max(assigned so far) + 1` when no
earlier cell ties with it; the relation tying exactly `1s` and `2s`
canonicalizes to `AABCDE`. -/
theorem algebra_interpretation_first_match :
    (∀ R : Finset (Node × Node),
      (algebra_interpretation R).length = 6 ∧
      (algebra_interpretation R).getD 0 0 = 0 ∧
      (∀ i, 0 < i → i < 6 →
        (algebra_interpretation R).getD i 0 =
          match (List.range i).find? (fun j =>
              decide ((presentation.getD j default, presentation.getD i default) ∈ R ∧
                      (presentation.getD i default, presentation.getD j default) ∈ R)) with
          | some j => (algebra_interpretation R).getD j 0
          | none => ((algebra_interpretation R).take i).foldl max 0 + 1)) ∧
    number_to_letter (algebra_interpretation
        {((('1', 's') : Node), (('2', 's') : Node)),
         ((('2', 's') : Node), (('1', 's') : Node))}) = ['A', 'A', 'B', 'C', 'D', 'E'] := by
  constructor
  · intro R
    refine ⟨?_, ?_, ?_⟩
    · rw [algebra_interpretation_eq_upto]
      exact interp_upto_length R 5 (by omega)
    · obtain ⟨t, ht⟩ := interpretation_suffix R 0 (by omega)
      rw [ht, interp_upto_zero]
      rfl
    · intro i h0 h6
      obtain ⟨k, rfl⟩ : ∃ k, i = k + 1 := ⟨i - 1, by omega⟩
      have hk : k < 5 := by omega
      rw [interpretation_getD R k hk]
      unfold interp_val
      rw [interp_upto_length R k (by omega)]
      cases hf : (List.range (k + 1)).find? (fun j =>
          decide ((presentation.getD j default, presentation.getD (k + 1) default) ∈ R ∧
                  (presentation.getD (k + 1) default, presentation.getD j default) ∈ R)) with
      | some j =>
          simp only [hf]
          have hj : j < k + 1 := List.mem_range.1 (List.mem_of_find?_eq_some hf)
          obtain ⟨t, ht⟩ := interpretation_suffix R k (by omega)
          rw [ht, List.getD_append _ _ _ _ (by rw [interp_upto_length R k (by omega)]; omega)]
      | none =>
          simp only [hf]
          rw [interpretation_take R k (by omega)]
  · decide

/-- Witness for C3: the per-cell rule applied to cell index `1` of the
relation tying `1s` and `2s`. -/
theorem algebra_interpretation_first_match_witness :
    ((0 : Nat) < 1 ∧ (1 : Nat) < 6) ∧
    (algebra_interpretation
        {((('1', 's') : Node), (('2', 's') : Node)),
         ((('2', 's') : Node), (('1', 's') : Node))}).getD 1 0 =
      match (List.range 1).find? (fun j =>
          decide ((presentation.getD j default, presentation.getD 1 default) ∈
              ({((('1', 's') : Node), (('2', 's') : Node)),
                ((('2', 's') : Node), (('1', 's') : Node))} : Finset (Node × Node)) ∧
            (presentation.getD 1 default, presentation.getD j default) ∈
              ({((('1', 's') : Node), (('2', 's') : Node)),
                ((('2', 's') : Node), (('1', 's') : Node))} : Finset (Node × Node)))) with
      | some j =>
          (algebra_interpretation
            {((('1', 's') : Node), (('2', 's') : Node)),
             ((('2', 's') : Node), (('1', 's') : Node))}).getD j 0
      | none =>
          ((algebra_interpretation
            {((('1', 's') : Node), (('2', 's') : Node)),
             ((('2', 's') : Node), (('1', 's') : Node))}).take 1).foldl max 0 + 1 :=
  ⟨⟨by decide, by decide⟩,
    (algebra_interpretation_first_match.1
        {((('1', 's') : Node), (('2', 's') : Node)),
         ((('2', 's') : Node), (('1', 's') : Node))}).2.2 1 (by decide) (by decide)⟩

/-- C8 (counterexample): `letter_to_number` does not reproduce
`algebra_interpretation`'s numbering — its first value is `1`, not
`interpret`'s base value `0`, as the empty relation shows. -/
theorem letter_to_number_base_counterexample :
    letter_to_number (number_to_letter
        (algebra_interpretation (∅ : Finset (Node × Node)))) ≠
      algebra_interpretation (∅ : Finset (Node × Node)) ∧
    (letter_to_number (number_to_letter
        (algebra_interpretation (∅ : Finset (Node × Node))))).head? ≠ some 0 :=
  ⟨by decide, by decide⟩

/-- C8 (amended): `letter_to_number` applies the same first-occurrence
numbering rule as `algebra_interpretation` but with base value `1`:
composing it with `number_to_letter ∘ algebra_interpretation` yields the
interpretation with every value shifted up by one, and the first assigned
number of any nonempty sequence is `1`. -/
theorem letter_to_number_shifted :
    (∀ R : Finset (Node × Node),
      letter_to_number (number_to_letter (algebra_interpretation R)) =
        (algebra_interpretation R).map (fun n => n + 1)) ∧
    (∀ (x : Char) (xs : List Char), (letter_to_number (x :: xs)).head? = some 1) := by
  constructor
  · intro R
    have hletters : number_to_letter (algebra_interpretation R) =
        (algebra_interpretation R).map (fun n => Char.ofNat (65 + n)) := rfl
    rw [hletters]
    exact canon0_ltn_map (canon0_interpretation R) (interpretation_bound R)
  · intro x xs
    have h1 : letter_to_number (x :: xs) = xs.foldl (ltn_step (x :: xs)) [1] := rfl
    rw [h1, ltn_fold_head (x :: xs) xs [1] (by simp)]
    rfl

/-- C9 (counterexample): on a hierarchy containing the self-pair
`('1','1')` the engine performs no validation and raises no error — it
returns a normal, nonempty relation. -/
theorem crossalgebra_no_validation_counterexample :
    crossalgebra {('1', '1'), ('1', '2')} {('s', 'p')} =
      Except.ok (crossalgebra_rel {('1', '1'), ('1', '2')} {('s', 'p')}) ∧
    (crossalgebra_rel {('1', '1'), ('1', '2')} {('s', 'p')}).Nonempty := by
  exact ⟨by rfl, by decide⟩

/-- C9 (amended): the engine performs no input validation: for any
hierarchy containing a self-pair (with the other hierarchy nonempty),
`crossalgebra` silently returns a relation instead of failing. -/
theorem crossalgebra_accepts_self_pair :
    ∀ (person number : Finset (Label × Label)) (x : Label),
      (x, x) ∈ person → number ≠ ∅ →
      crossalgebra person number = Except.ok (crossalgebra_rel person number) := by
  intro person number x hx hn
  unfold crossalgebra
  rw [if_pos]
  exact none_mem_cross_output
    (extract_elements_nonempty (Finset.ne_empty_of_mem hx))
    (extract_elements_nonempty hn)

/-- Witness for C9 (amended): the self-pair hierarchy `{(1,1),(1,2)}` with
number hierarchy `{(s,p)}` is processed without error. -/
theorem crossalgebra_accepts_self_pair_witness :
    (('1', '1') ∈ ({('1', '1'), ('1', '2')} : Finset (Label × Label)) ∧
      ({('s', 'p')} : Finset (Label × Label)) ≠ ∅) ∧
    crossalgebra {('1', '1'), ('1', '2')} {('s', 'p')} =
      Except.ok (crossalgebra_rel {('1', '1'), ('1', '2')} {('s', 'p')}) :=
  ⟨⟨by decide, by decide⟩,
    crossalgebra_accepts_self_pair {('1', '1'), ('1', '2')} {('s', 'p')} '1'
      (by decide) (by decide)⟩

/-- C10: with an empty hierarchy on either side the node universe is empty,
the `None` sentinel is absent, and `crossalgebra` raises; with two
nonempty hierarchies the sentinel is produced by the diagonal node pairs
and `crossalgebra` returns normally. -/
theorem crossalgebra_empty_error_nonempty_ok :
    ∀ (person number : Finset (Label × Label)),
      ((person = ∅ ∨ number = ∅) →
        crossalgebra person number = Except.error "KeyError: None") ∧
      (person ≠ ∅ → number ≠ ∅ →
        none ∈ cross_output person number ∧
        crossalgebra person number = Except.ok (crossalgebra_rel person number)) := by
  intro person number
  constructor
  · intro h
    have hout : cross_output person number = ∅ := by
      rcases h with h | h
      · subst h; exact cross_output_of_empty_left
      · subst h; exact cross_output_of_empty_right
    unfold crossalgebra
    rw [if_neg (by simp [hout])]
  · intro hp hn
    have hsent : none ∈ cross_output person number :=
      none_mem_cross_output (extract_elements_nonempty hp) (extract_elements_nonempty hn)
    refine ⟨hsent, ?_⟩
    unfold crossalgebra
    rw [if_pos hsent]

/-- Witness for C10: the error case at an empty person hierarchy and the
normal case at nonempty hierarchies. -/
theorem crossalgebra_empty_error_nonempty_ok_witness :
    crossalgebra ∅ {('s', 'p')} = Except.error "KeyError: None" ∧
    crossalgebra {('1', '2')} {('s', 'p')} =
      Except.ok (crossalgebra_rel {('1', '2')} {('s', 'p')}) :=
  ⟨(crossalgebra_empty_error_nonempty_ok ∅ {('s', 'p')}).1 (Or.inl rfl),
    ((crossalgebra_empty_error_nonempty_ok {('1', '2')} {('s', 'p')}).2
      (by decide) (by decide)).2⟩

end Syncalc
